import Mathlib

/-!
Verification of the review-buddy repository's core decision logic against its
specification.  The definitions below are a shallow embedding of the Python
source: `src/ai_review.py` (review-trigger scan, requested-model extraction,
per-request orchestration, configuration validation, polling loop) and
`src/ollama_api.py` (streamed generation).  Strings are Lean `String`
(a list of characters), Python string containment (`in`) is substring
containment on the character lists, and side effects (HTTP calls, posted
comments, sleeps) are reified as an explicit `Effect` trace.
-/

/-- `needle` is an initial segment of `hay` (on character lists). -/
def startsWithList : List Char → List Char → Bool
  | [], _ => true
  | _ :: _, [] => false
  | a :: as, b :: bs => a == b && startsWithList as bs

/-- `needle` occurs contiguously somewhere in `hay`. -/
def occursIn (needle hay : List Char) : Bool :=
  match hay with
  | [] => needle.isEmpty
  | _ :: t => startsWithList needle hay || occursIn needle t

/-- Python `needle in hay` on strings: substring containment. -/
def pyIn (needle hay : String) : Bool :=
  occursIn needle.data hay.data

/-- A pull-request / merge-request comment: author identity and body text.
GitHub comments expose the author as `user.login`, GitLab as
`author.username`; both are the `author` field here. -/
structure Comment where
  author : String
  body : String
deriving DecidableEq

/-- Basic data of a pull/merge request used by the orchestrator. -/
structure PrInfo where
  title : String
deriving DecidableEq

/- ------------------------------------------------------------------
Requested-model extraction: `get_requested_model` in src/ai_review.py,
the regex search re.search(r'\b(use|using)\s+([a-zA-Z0-9\-\:\.]+)', text,
flags=re.IGNORECASE), compiled to an explicit left-to-right scan with the
regex engine's leftmost-match, alternation-order and greedy semantics.
------------------------------------------------------------------ -/

/-- Python regex `\w` (ASCII): letters, digits, underscore. -/
def wordChar (ch : Char) : Bool :=
  ch.isAlpha || ch.isDigit || ch == '_'

/-- Python regex `\s` (ASCII whitespace). -/
def wsChar (ch : Char) : Bool :=
  ch == ' ' || ch == '\t' || ch == '\n' || ch == '\r' || ch == '\x0b' || ch == '\x0c'

/-- The character class `[a-zA-Z0-9\-\:\.]` of the model-name capture group. -/
def tokenChar (ch : Char) : Bool :=
  ch.isAlpha || ch.isDigit || ch == '-' || ch == ':' || ch == '.'

/-- Case-insensitive literal match: consume the (lowercase) keyword `kw` from
the front of `l`, returning the rest, as the regex engine matches a literal
under re.IGNORECASE. -/
def matchCI : List Char → List Char → Option (List Char)
  | [], l => some l
  | _ :: _, [] => none
  | p :: ps, c :: cs => if c.toLower == p then matchCI ps cs else none

/-- `\s+([a-zA-Z0-9\-\:\.]+)`: at least one whitespace, then the captured
greedy run of token characters.  Backtracking into `\s+` can never help,
because no whitespace character is in the capture class, so the regex
succeeds here exactly when the first non-whitespace character is a token
character. -/
def matchWsToken (l : List Char) : Option (List Char) :=
  let rest := l.dropWhile wsChar
  if (l.takeWhile wsChar).isEmpty then none
  else if (rest.takeWhile tokenChar).isEmpty then none
  else some (rest.takeWhile tokenChar)

/-- The `using` alternative of `(use|using)` followed by `\s+` and the capture. -/
def tryUsing (l : List Char) : Option (List Char) :=
  match matchCI ['u', 's', 'i', 'n', 'g'] l with
  | some r => matchWsToken r
  | none => none

/-- The whole pattern tried at one position: alternation order `use` first,
falling back to `using` when `use` or what must follow it fails. -/
def tryMatch (l : List Char) : Option (List Char) :=
  match matchCI ['u', 's', 'e'] l with
  | some r =>
    match matchWsToken r with
    | some tok => some tok
    | none => tryUsing l
  | none => tryUsing l

/-- re.search's scan: try the pattern at each position from the left; `prev`
is the character before the current suffix, deciding the `\b` word boundary
(the pattern starts with the word character `u`, so `\b` holds iff the
previous character is absent or not a word character). -/
def searchAux : Option Char → List Char → Option (List Char)
  | _, [] => none
  | prev, c :: rest =>
    let bOk : Bool := match prev with
      | none => true
      | some p => !(wordChar p)
    match (if bOk then tryMatch (c :: rest) else none) with
    | some tok => some tok
    | none => searchAux (some c) rest

/-- `get_requested_model` (src/ai_review.py lines 177-187): the word that
immediately follows the first occurrence of "use" or "using". -/
def get_requested_model (text : String) : Option String :=
  (searchAux none text.data).map (fun cs => String.mk cs)

/- Specification-side formulation of the same extraction, following the
spec's words: locate the first case-insensitive whole-word occurrence of
"use" or "using" followed by whitespace and a token, and return the token. -/

/-- Case-insensitive "starts with the keyword" test (spec formulation). -/
def ciStartsWith : List Char → List Char → Bool
  | [], _ => true
  | _ :: _, [] => false
  | p :: ps, c :: cs => c.toLower == p && ciStartsWith ps cs

/-- Word boundary before position `i` of `l` (the spec's "whole-word"). -/
def boundaryAt (l : List Char) (i : Nat) : Bool :=
  match i with
  | 0 => true
  | j + 1 =>
    match l.get? j with
    | some p => !(wordChar p)
    | none => false

/-- Which keyword, "use" or "using", starts (case-insensitively) at the head
of `t`, and its length.  The two cannot both be followed by the required
whitespace, so the order here is immaterial. -/
def keywordLenAt (t : List Char) : Option Nat :=
  if ciStartsWith ['u', 's', 'i', 'n', 'g'] t then some 5
  else if ciStartsWith ['u', 's', 'e'] t then some 3
  else none

/-- A hit of the spec's description at position `i`: a whole-word keyword
occurrence followed by whitespace and a run of token characters. -/
def specHit (l : List Char) (i : Nat) : Option (List Char) :=
  if boundaryAt l i then
    match keywordLenAt (l.drop i) with
    | some k => matchWsToken ((l.drop i).drop k)
    | none => none
  else none

/-- The extraction as the spec words it: the token of the first position at
which the whole description matches. -/
def extractModelSpec (text : String) : Option String :=
  ((List.range text.data.length).findSome? (specHit text.data)).map
    (fun cs => String.mk cs)

/- ------------------------------------------------------------------
The review-trigger scan: the comment loop of process_pull_requests
(src/ai_review.py lines 196-207) and the derived TriggerDecision.
------------------------------------------------------------------ -/

/-- `git_username in comment_username` (line 203): the bot identity occurs in
the comment's author identity. -/
def isBotAuthored (bot : String) (c : Comment) : Bool :=
  pyIn bot c.author

/-- `f"@{git_username}" in comment_body` (line 205): the comment body
contains the "@bot" mention text. -/
def isMention (bot : String) (c : Comment) : Bool :=
  pyIn ("@" ++ bot) c.body

/-- One step of the oldest-to-newest scan over the thread.  State is
(review_requested, latest_comment_text).  A bot-authored comment clears the
flag (author check first); otherwise a mention sets it and records the body;
otherwise the state is unchanged. -/
def scanStep (bot : String) (st : Bool × String) (c : Comment) : Bool × String :=
  if isBotAuthored bot c then (false, st.2)
  else if isMention bot c then (true, c.body)
  else st

/-- The whole scan, starting from review_requested = False,
latest_comment_text = ''. -/
def decideScan (bot : String) (comments : List Comment) : Bool × String :=
  comments.foldl (scanStep bot) (false, "")

/-- The spec's TriggerDecision value. -/
structure TriggerDecision where
  triggered : Bool
  requestedModel : Option String
deriving DecidableEq

/-- ReviewTrigger.decide: the scan, plus model extraction from the recorded
triggering text when (and only when) the scan triggered. -/
def decideTrigger (bot : String) (comments : List Comment) : TriggerDecision :=
  let s := decideScan bot comments
  { triggered := s.1
    requestedModel := if s.1 then get_requested_model s.2 else none }

/-- Index of the last comment of the list satisfying `p`, if any. -/
def lastIdxSat (p : Comment → Bool) : List Comment → Option Nat
  | [] => none
  | c :: l =>
    match lastIdxSat p l with
    | some j => some (j + 1)
    | none => if p c then some 0 else none

/-- The trigger value contributed by the last "relevant" comment (one that is
bot-authored or a mention): false for a bot-authored one, true for a
non-bot-authored mention; none when no comment is relevant.  Proof device
relating the scan to last-index comparisons. -/
def lastRelevantTrig (bot : String) : List Comment → Option Bool
  | [] => none
  | c :: l =>
    match lastRelevantTrig bot l with
    | some b => some b
    | none =>
      if isBotAuthored bot c then some false
      else if isMention bot c then some true
      else none

/- ------------------------------------------------------------------
Per-request orchestration (src/ai_review.py lines 195-225): effects.
------------------------------------------------------------------ -/

/-- Reified side effects of the orchestrator. -/
inductive Effect where
  | getComments : Effect
  | getDiff : Effect
  | generate : Option String → String → Effect
  | postComment : String → Effect
  | log : String → Effect
  | sleep : Nat → Effect
deriving DecidableEq

/-- The rejection comment text of lines 213-215 (including the source's
wording), with Python's `', '.join(allowed_models)`. -/
def rejectionMsg (model : String) (allowed : List String) : String :=
  model ++ " is not an allowed model. Please use on of the following models: "
    ++ String.intercalate ", " allowed ++ "."

/-- `prompt_text = f"Git diff\n{diff}"` (line 218). -/
def diffPrompt (diff : String) : String :=
  "Git diff\n" ++ diff

/-- A space or tab, the characters textwrap.dedent's `[ \t]` classes treat
as indentation. -/
def indentChar (ch : Char) : Bool :=
  ch == ' ' || ch == '\t'

/-- Python `text.split('\n')`, the line decomposition under which
re.MULTILINE's per-line anchors operate. -/
def splitLines : List Char → List (List Char)
  | [] => [[]]
  | c :: rest =>
    if c == '\n' then [] :: splitLines rest
    else
      match splitLines rest with
      | l :: ls => (c :: l) :: ls
      | [] => [[c]]

/-- Inverse of `splitLines`: rejoin lines with newlines. -/
def joinLines : List (List Char) → List Char
  | [] => []
  | [l] => l
  | l :: ls => l ++ '\n' :: joinLines ls

/-- A line matching dedent's `^[ \t]+$`: non-empty and all spaces/tabs. -/
def wsOnlyLine (l : List Char) : Bool :=
  !l.isEmpty && l.all indentChar

/-- dedent's first pass, `_whitespace_only_re.sub('', text)`: every
whitespace-only line is normalized to an empty line, unconditionally. -/
def blankLines (lines : List (List Char)) : List (List Char) :=
  lines.map (fun l => if wsOnlyLine l then [] else l)

/-- The leading `[ \t]*` run of a line. -/
def indentOf (l : List Char) : List Char :=
  l.takeWhile indentChar

/-- A line `_leading_whitespace_re` finds an indent on: it has a character
outside `[ \t]` (lines hold no newline). -/
def isContentLine (l : List Char) : Bool :=
  !(l.all indentChar)

/-- Longest common prefix of two character lists.  dedent's margin loop
(keep the winner when one indent is a prefix of the other, else cut the
winner at the first mismatch) computes exactly this fold. -/
def lcp : List Char → List Char → List Char
  | [], _ => []
  | _ :: _, [] => []
  | a :: as, b :: bs => if a == b then a :: lcp as bs else []

/-- dedent's margin: the common leading-whitespace prefix of all content
lines (of the already whitespace-normalized text), empty when there are
none. -/
def marginOf (lines : List (List Char)) : List Char :=
  match (lines.filter isContentLine).map indentOf with
  | [] => []
  | i :: rest => rest.foldl lcp i

/-- dedent's final pass, `re.sub(r'(?m)^' + margin, '', text)` when the
margin is non-empty: drop the margin from every line that starts with it. -/
def stripMargin (m : List Char) (lines : List (List Char)) : List (List Char) :=
  if m.isEmpty then lines
  else lines.map (fun l => if startsWithList m l then l.drop m.length else l)

/-- textwrap.dedent: normalize whitespace-only lines to empty lines, then
strip the common leading-whitespace margin of the content lines from every
line. -/
def dedent (s : String) : String :=
  String.mk (joinLines (stripMargin (marginOf (blankLines (splitLines s.data)))
    (blankLines (splitLines s.data))))

/-- The string literal `do_review` assembles before dedent (lines 145-150):
the fixed header with the title interpolated, a newline, and the code
changes. -/
def reviewPromptRaw (title codeChanges : String) : String :=
  "You are a senior software engineer. Review this open pull request titled \""
    ++ title
    ++ "\". Point out potential bugs, style issues, and improvements. You do not need to summarize the changes. Include example code in your feedback.\n"
    ++ codeChanges

/-- The prompt `do_review` sends to generation (line 145): textwrap.dedent
of the assembled literal. -/
def reviewPrompt (title codeChanges : String) : String :=
  dedent (reviewPromptRaw title codeChanges)

/-- The header line of the raw prompt for the one-character title "t",
spelled out for the concrete computations below. -/
def hdrLineT : String :=
  "You are a senior software engineer. Review this open pull request titled \"t\". Point out potential bugs, style issues, and improvements. You do not need to summarize the changes. Include example code in your feedback."

/-- The first `n` characters of a string (what truncation to a bounded
prefix length would mean). -/
def strTake (s : String) (n : Nat) : String :=
  String.mk (s.data.take n)

/-- Processing of one request given its fetched comments (the body of the
`for pr in pulls` loop after `get_comments`, lines 195-225): run the scan;
if triggered, extract the model; a requested model not in the allow-list
draws a rejection comment and skips generation (`continue`); otherwise
fetch the diff, generate the review and post it.  `diff` and `review` stand
for the texts the source-control and generation services return. -/
def processRequest (bot : String) (allowed : List String) (pr : PrInfo)
    (diff review : String) (comments : List Comment) : List Effect :=
  if comments.isEmpty then []
  else
    if (decideScan bot comments).1 then
      match get_requested_model (decideScan bot comments).2 with
      | some m =>
        if allowed.contains m then
          [Effect.getDiff,
           Effect.generate (some m) (reviewPrompt pr.title (diffPrompt diff)),
           Effect.postComment review]
        else
          [Effect.postComment (rejectionMsg m allowed)]
      | none =>
        [Effect.getDiff,
         Effect.generate none (reviewPrompt pr.title (diffPrompt diff)),
         Effect.postComment review]
    else []

/-- Python unbound-local read: NameError. -/
inductive PyError where
  | nameError : String → PyError
deriving DecidableEq

/-- The loop of `process_pull_requests` (lines 192-225) with the local
variable `c` threaded explicitly: line 193 evaluates
`isinstance(c, GitHubComment)` and so reads `c`, which is unbound until the
inner comment loop has run at least once.  Returns the effect trace and the
error that aborted the loop, if any. -/
def processPullsGo (bot : String) (allowed : List String)
    (diff review : PrInfo → String) :
    Option Comment → List (PrInfo × List Comment) → List Effect →
      List Effect × Option PyError
  | _, [], acc => (acc, none)
  | cVar, (pr, comments) :: rest, acc =>
    match cVar with
    | none => (acc, some (PyError.nameError "c"))
    | some c0 =>
      let effs := Effect.getComments ::
        processRequest bot allowed pr (diff pr) (review pr) comments
      let cVarNext := match comments.getLast? with
        | some lc => some lc
        | none => some c0
      processPullsGo bot allowed diff review cVarNext rest (acc ++ effs)

/-- `process_pull_requests(pulls)`: the local `c` starts unbound. -/
def process_pull_requests (bot : String) (allowed : List String)
    (pulls : List (PrInfo × List Comment)) (diff review : PrInfo → String) :
    List Effect × Option PyError :=
  processPullsGo bot allowed diff review none pulls []

/- ------------------------------------------------------------------
Configuration reading (read_config, src/ai_review.py lines 62-140) and the
process-level outcome of main (lines 239-258 together with the module-level
`if __name__ == "__main__": main()` call, line 261).
------------------------------------------------------------------ -/

/-- One entry of the config's repository list; absent and null JSON values
are both `none`. -/
structure RepoEntry where
  name : Option String
  owner : Option String
deriving DecidableEq

/-- The parsed config.json contents; `none` for an absent key. -/
structure ConfigJson where
  token : Option String
  gitUrl : Option String
  ollamaUrl : Option String
  aiModel : Option String
  allowedModels : Option (List String)
  username : Option String
  repositories : Option (List RepoEntry)
  projects : Option (List String)
deriving DecidableEq

/-- The state read_config establishes on success. -/
structure AppState where
  ollamaModel : String
  allowedModels : List String
  username : String
  githubRepos : List (String × String)
  gitlabProjects : List String
deriving DecidableEq

/-- `KEY not in data or len(data[KEY]) == 0` raises with `msg`. -/
def reqStr (v : Option String) (msg : String) : Except String String :=
  match v with
  | some s => if s.length = 0 then Except.error msg else Except.ok s
  | none => Except.error msg

/-- The repository-list validation loop (lines 114-125): every entry needs a
non-empty name and owner. -/
def buildRepoList : List RepoEntry → Except String (List (String × String))
  | [] => Except.ok []
  | r :: rest =>
    match r.name with
    | none => Except.error "Repository name is not set! Please ensure it is present for all entries in the repo-list."
    | some n =>
      if n.length = 0 then
        Except.error "Repository name is not set! Please ensure it is present for all entries in the repo-list."
      else
        match r.owner with
        | none => Except.error "Repository owner is not set! Please ensure it is present for all entries in the repo-list."
        | some o =>
          if o.length = 0 then
            Except.error "Repository owner is not set! Please ensure it is present for all entries in the repo-list."
          else
            match buildRepoList rest with
            | Except.error e => Except.error e
            | Except.ok tail => Except.ok ((n, o) :: tail)

/-- read_config on a successfully parsed config.json (lines 66-136).  A
`data[key]` lookup of an absent "repositories" or "projects" key is a
KeyError; it propagates like the explicit raises, so it is an `error` here
too. -/
def read_config_data (data : ConfigJson) : Except String AppState := do
  let _gitToken ← reqStr data.token "git-token not found in config file!"
  let _gitUrl ← reqStr data.gitUrl "git-url not found in config file!"
  let modelName := match data.aiModel with
    | some m => if m.length > 0 then m else "codellama"
    | none => "codellama"
  let allowed := match data.allowedModels with
    | some l => if l.length > 0 then l else []
    | none => []
  if allowed.length > 0 && !(allowed.contains modelName) then
    throw (modelName ++ " is not in allowed models list!")
  let username ← reqStr data.username "git-username not found in config file!"
  let repos ← match data.repositories with
    | some r => Except.ok r
    | none => Except.error "KeyError: repositories"
  let projects ← match data.projects with
    | some p => Except.ok p
    | none => Except.error "KeyError: projects"
  let repoList ← buildRepoList repos
  if repoList.length > 0 then
    pure ⟨modelName, allowed, username, repoList, []⟩
  else if projects.length > 0 then
    pure ⟨modelName, allowed, username, [], projects⟩
  else
    throw "No GitHub repositories or GitLab projects found in the config!"

/-- read_config including the FileNotFoundError path (lines 137-140):
`none` stands for a missing config.json, whose error is printed and
re-raised. -/
def read_config (file : Option ConfigJson) : Except String AppState :=
  match file with
  | none => Except.error "config.json not found"
  | some data => read_config_data data

/-- The value `main()` returns (lines 239-258): -1 when read_config fails
(after printing the error), and no value at all otherwise, because the
polling loop never terminates.  `none` models "never returns". -/
def main_result (file : Option ConfigJson) : Option Int :=
  match read_config file with
  | Except.error _ => some (-1)
  | Except.ok _ => none

/-- The process exit status: line 261 is `main()` bare at module level, so
main's return value is discarded and, whenever main returns at all, the
script falls off its end and the interpreter exits with status 0. -/
def script_exit (file : Option ConfigJson) : Option Int :=
  match main_result file with
  | some _ => some 0
  | none => none

/- ------------------------------------------------------------------
The polling loop of main (lines 247-258): catch, log, back off, repeat.
------------------------------------------------------------------ -/

/-- The outcome of one pass of the `try` body: either it ran to completion
having emitted `trace`, or it raised after emitting `trace`, with the
error's message. -/
inductive PassResult where
  | ok : List Effect → PassResult
  | err : List Effect → String → PassResult

/-- The effects of one iteration of `while True`: the pass's own effects,
then either the one-minute wait of the normal path (lines 253-254) or the
ERROR log and five-minute cooldown of the except arm (lines 255-258). -/
def iterTrace : PassResult → List Effect
  | PassResult.ok tr => tr ++ [Effect.log "Waiting one minute...", Effect.sleep 60]
  | PassResult.err tr msg => tr ++ [Effect.log ("ERROR " ++ msg), Effect.sleep 300]

/-- The cumulative effect trace of the first `n` iterations of the loop,
given the outcome of each pass.  Total for every `n`: the loop body contains
no return or break, so there is an (n+1)-st iteration after every n-th. -/
def runLoop (passes : Nat → PassResult) : Nat → List Effect
  | 0 => []
  | n + 1 => runLoop passes n ++ iterTrace (passes n)

/-- A fixed schedule in which every pass fails after posting one comment. -/
def constPassErr : Nat → PassResult :=
  fun _ => PassResult.err [Effect.postComment "review A"] "boom"

/- ------------------------------------------------------------------
The generation client (src/ollama_api.py): streamed chunks buffered into
one string, default-model resolution.
------------------------------------------------------------------ -/

/-- One parsed streamed response line: its "done" and "response" fields. -/
structure GenChunk where
  done : Bool
  response : String
deriving DecidableEq

/-- Ollama client config (host and default model). -/
structure OllamaConfig where
  host : String
  default_model : String
deriving DecidableEq

/-- The request body do_generation posts (lines 49-53). -/
structure GeneratePayload where
  model : String
  prompt : String
  stream : Bool
deriving DecidableEq

/-- `__do_streaming_request` (lines 25-43) over the received lines: an empty
line (`none`) is skipped; otherwise the chunk's response is appended and the
loop breaks when the chunk's done field is true. -/
def do_streaming_request : List (Option GenChunk) → String
  | [] => ""
  | none :: rest => do_streaming_request rest
  | some ch :: rest =>
    if ch.done then ch.response else ch.response ++ do_streaming_request rest

/-- The payload of do_generation (lines 45-55): requested model when given,
else the configured default; stream: true. -/
def generationPayload (cfg : OllamaConfig) (request : String)
    (model : Option String) : GeneratePayload :=
  { model := match model with
      | some m => m
      | none => cfg.default_model
    prompt := request
    stream := true }

/-- do_generation as a whole: the payload it posts and the buffered text it
returns for the stream of lines the service answers with. -/
def do_generation (cfg : OllamaConfig) (request : String)
    (model : Option String) (lines : List (Option GenChunk)) :
    GeneratePayload × String :=
  (generationPayload cfg request model, do_streaming_request lines)

/-- Index of the first chunk whose done field is true. -/
def firstDoneIdx : List GenChunk → Option Nat
  | [] => none
  | c :: l => if c.done then some 0 else (firstDoneIdx l).map (fun j => j + 1)

/-- Concatenation, in order, of the response fields of a chunk list. -/
def concatResponses (cs : List GenChunk) : String :=
  cs.foldr (fun c acc => c.response ++ acc) ""

/- ------------------------------------------------------------------
Proof devices and concrete inputs used by the theorems below.
------------------------------------------------------------------ -/

/-- The word boundary of `searchAux`, indexed: at offset 0 of the remaining
suffix it is decided by the previous character `prev`, at offset j+1 by the
suffix's own character j.  Generalizes `boundaryAt` for the scan proof. -/
def bndP (prev : Option Char) (l : List Char) : Nat → Bool
  | 0 =>
    match prev with
    | none => true
    | some p => !(wordChar p)
  | j + 1 =>
    match l.get? j with
    | some p => !(wordChar p)
    | none => false

/-- `specHit` with the boundary generalized over the preceding character. -/
def specHitP (prev : Option Char) (l : List Char) (i : Nat) : Option (List Char) :=
  if bndP prev l i then
    match keywordLenAt (l.drop i) with
    | some k => matchWsToken ((l.drop i).drop k)
    | none => none
  else none

/-- A 4001-character diff, one character over the 4000 bound the spec
names. -/
def bigDiff : String :=
  String.mk (List.replicate 4001 'x')

/-- A parsed config.json with no token entry (all other fields present). -/
def cfgMissingToken : ConfigJson :=
  ⟨none, some "https://git.example.com", none, none, none, some "buddy", some [], some []⟩

/- ==================================================================
Theorems.
================================================================== -/

/-- Helper: the length of a string built from a character list. -/
theorem string_length_mk (l : List Char) : (String.mk l).length = l.length := rfl

/-- Helper: string concatenation adds lengths. -/
theorem string_length_append (a b : String) : (a ++ b).length = a.length + b.length := by
  cases a with
  | mk la =>
    cases b with
    | mk lb =>
      show (la ++ lb).length = la.length + lb.length
      exact List.length_append la lb

/-- Helper: the empty string is right-neutral for concatenation. -/
theorem string_append_empty (s : String) : s ++ "" = s := by
  cases s with
  | mk l =>
    show String.mk (l ++ []) = String.mk l
    rw [List.append_nil]

set_option maxRecDepth 4000 in
/-- C7: on the thread [alice: "@bot please review", bot: "done",
alice: "@bot use mistral check again"] with bot identity "bot", the
decision is triggered with requested model "mistral", and the recorded
triggering text is the last mention's body: the bot's reply cleared the
first mention and the later mention superseded it. -/
theorem trigger_example_latest_mention_wins :
    decideTrigger "bot"
        [⟨"alice", "@bot please review"⟩, ⟨"bot", "done"⟩,
         ⟨"alice", "@bot use mistral check again"⟩] =
      ⟨true, some "mistral"⟩
    ∧ (decideScan "bot"
        [⟨"alice", "@bot please review"⟩, ⟨"bot", "done"⟩,
         ⟨"alice", "@bot use mistral check again"⟩]).2 =
      "@bot use mistral check again" :=
  ⟨rfl, rfl⟩

set_option maxRecDepth 8000 in
/-- C3 (the code at the failing input): with the allow-list left empty —
the configured default, which the spec says means "no restriction" — a
triggered request that names a model is rejected: `model not in []` is
always true, so the orchestrator posts the rejection comment (listing no
models at all) and skips generation. -/
theorem empty_allowlist_rejects_requested_model :
    processRequest "bot" [] ⟨"t"⟩ "some diff" "some review"
        [⟨"alice", "@bot use mistral"⟩] =
      [Effect.postComment
        "mistral is not an allowed model. Please use on of the following models: ."]
    ∧ (∀ m p, Effect.generate m p ∉
        processRequest "bot" [] ⟨"t"⟩ "some diff" "some review"
          [⟨"alice", "@bot use mistral"⟩]) := by
  have e : processRequest "bot" [] ⟨"t"⟩ "some diff" "some review"
      [⟨"alice", "@bot use mistral"⟩] =
      [Effect.postComment
        "mistral is not an allowed model. Please use on of the following models: ."] := by
    decide
  refine ⟨e, ?_⟩
  intro m p hmem
  rw [e] at hmem
  simp at hmem

/-- C5 (the code at the failing input): on a startup configuration failure
(no git token here; a missing config.json likewise) read_config raises,
main prints the error and returns -1 — but the module-level call discards
main's return value, so the interpreter exits with status 0, not non-zero;
and when configuration succeeds the loop never returns, so the process
never exits at all. -/
theorem config_failure_process_exits_zero :
    read_config (some cfgMissingToken) =
      Except.error "git-token not found in config file!"
    ∧ main_result (some cfgMissingToken) = some (-1)
    ∧ script_exit (some cfgMissingToken) = some 0
    ∧ script_exit none = some 0
    ∧ (∀ j : Option ConfigJson, main_result j = none → script_exit j = none) := by
  refine ⟨rfl, rfl, rfl, rfl, ?_⟩
  intro j h
  simp [script_exit, h]

/-- C2: process_pull_requests evaluates `isinstance(c, GitHubComment)` on
its first iteration before `c` has ever been assigned, so for every
non-empty input it stops with a NameError having emitted no effect: no
comments fetched, nothing generated, nothing posted.  The empty input
returns normally. -/
theorem unbound_comment_variable_aborts (bot : String) (allowed : List String)
    (pulls : List (PrInfo × List Comment)) (diff review : PrInfo → String)
    (h : pulls ≠ []) :
    process_pull_requests bot allowed pulls diff review =
      ([], some (PyError.nameError "c"))
    ∧ (process_pull_requests bot allowed pulls diff review).1 = []
    ∧ process_pull_requests bot allowed [] diff review = ([], none) := by
  obtain ⟨hd, tl, rfl⟩ := List.exists_cons_of_ne_nil h
  obtain ⟨pr, comments⟩ := hd
  exact ⟨rfl, rfl, rfl⟩

/-- Witness for C2 at a concrete one-request input. -/
theorem unbound_comment_variable_aborts_witness :
    process_pull_requests "bot" [] [(⟨"t"⟩, [⟨"alice", "@bot hi"⟩])]
        (fun _ => "d") (fun _ => "r") =
      ([], some (PyError.nameError "c"))
    ∧ (process_pull_requests "bot" [] [(⟨"t"⟩, [⟨"alice", "@bot hi"⟩])]
        (fun _ => "d") (fun _ => "r")).1 = []
    ∧ process_pull_requests "bot" [] [] (fun _ => "d") (fun _ => "r") = ([], none) :=
  unbound_comment_variable_aborts "bot" [] [(⟨"t"⟩, [⟨"alice", "@bot hi"⟩])]
    (fun _ => "d") (fun _ => "r") (by simp)

/-- C9: in the polling loop, a pass that raises is caught at the pass
boundary: its effects up to the error persist in the trace, the error is
logged with its message and followed by the five-minute cooldown, and the
next pass still begins; a pass that completes is followed by the one-minute
wait; each iteration only appends to the trace (earlier work is not
undone) and there is an iteration after every iteration (the loop never
returns). -/
theorem polling_loop_error_containment (passes : Nat → PassResult) (n : Nat)
    (tr : List Effect) (msg : String) :
    (passes n = PassResult.err tr msg →
      runLoop passes (n + 2) =
        runLoop passes n ++ tr ++ [Effect.log ("ERROR " ++ msg), Effect.sleep 300]
          ++ iterTrace (passes (n + 1)))
    ∧ (passes n = PassResult.ok tr →
      runLoop passes (n + 2) =
        runLoop passes n ++ tr ++ [Effect.log "Waiting one minute...", Effect.sleep 60]
          ++ iterTrace (passes (n + 1)))
    ∧ (∃ t, runLoop passes (n + 1) = runLoop passes n ++ t)
    ∧ (∀ e, e ∈ runLoop passes n → e ∈ runLoop passes (n + 1)) := by
  refine ⟨?_, ?_, ⟨iterTrace (passes n), rfl⟩, ?_⟩
  · intro h
    show runLoop passes (n + 1) ++ iterTrace (passes (n + 1)) = _
    rw [show runLoop passes (n + 1) = runLoop passes n ++ iterTrace (passes n) from rfl,
      h]
    simp [iterTrace, List.append_assoc]
  · intro h
    show runLoop passes (n + 1) ++ iterTrace (passes (n + 1)) = _
    rw [show runLoop passes (n + 1) = runLoop passes n ++ iterTrace (passes n) from rfl,
      h]
    simp [iterTrace, List.append_assoc]
  · intro e he
    show e ∈ runLoop passes n ++ iterTrace (passes n)
    exact List.mem_append_left _ he

/-- Witness for C9: a schedule whose every pass posts one comment and then
fails. -/
theorem polling_loop_error_containment_witness :
    runLoop constPassErr 2 =
      runLoop constPassErr 0 ++ [Effect.postComment "review A"]
        ++ [Effect.log ("ERROR " ++ "boom"), Effect.sleep 300]
        ++ iterTrace (constPassErr 1) :=
  (polling_loop_error_containment constPassErr 0 [Effect.postComment "review A"] "boom").1
    rfl

/-- C10: do_generation presents the chunk stream as one blocking call
returning exactly the concatenation, in arrival order, of the response
fields of the chunks up to and including the first chunk whose done field
is true; the model of the posted payload is the requested model when one
is given, else the configured default. -/
theorem streaming_concat_until_first_done (cfg : OllamaConfig) (request : String)
    (model : Option String) (chunks : List GenChunk) (k : Nat)
    (h : firstDoneIdx chunks = some k) :
    (do_generation cfg request model (chunks.map some)).2 =
      concatResponses (chunks.take (k + 1))
    ∧ (do_generation cfg request model (chunks.map some)).1.model =
      model.getD cfg.default_model := by
  constructor
  · show do_streaming_request (chunks.map some) = concatResponses (chunks.take (k + 1))
    induction chunks generalizing k with
    | nil => simp [firstDoneIdx] at h
    | cons ch rest ih =>
      by_cases hd : ch.done
      · have hk : k = 0 := by
          simp [firstDoneIdx, hd] at h
          omega
        subst hk
        simp [do_streaming_request, hd, List.take, concatResponses, string_append_empty]
      · have h2 : (firstDoneIdx rest).map (fun j => j + 1) = some k := by
          simpa [firstDoneIdx, hd] using h
        obtain ⟨k2, hk2, hkk⟩ := Option.map_eq_some'.mp h2
        subst hkk
        show do_streaming_request (some ch :: rest.map some) =
          concatResponses ((ch :: rest).take (k2 + 1 + 1))
        rw [show (ch :: rest).take (k2 + 1 + 1) = ch :: rest.take (k2 + 1) from rfl]
        rw [show concatResponses (ch :: rest.take (k2 + 1)) =
          ch.response ++ concatResponses (rest.take (k2 + 1)) from rfl]
        rw [show do_streaming_request (some ch :: rest.map some) =
          (if ch.done then ch.response
           else ch.response ++ do_streaming_request (rest.map some)) from rfl]
        rw [if_neg hd, ih k2 hk2]
  · cases model with
    | none => rfl
    | some m => rfl

/-- Witness for C10 at a concrete three-chunk stream whose second chunk is
the first done one. -/
theorem streaming_concat_until_first_done_witness :
    (do_generation ⟨"http://localhost:11434", "codellama"⟩ "prompt" none
        ([⟨false, "Hel"⟩, ⟨true, "lo"⟩, ⟨false, "tail"⟩].map some)).2 =
      concatResponses ([⟨false, "Hel"⟩, ⟨true, "lo"⟩, ⟨false, "tail"⟩].take 2)
    ∧ (do_generation ⟨"http://localhost:11434", "codellama"⟩ "prompt" none
        ([⟨false, "Hel"⟩, ⟨true, "lo"⟩, ⟨false, "tail"⟩].map some)).1.model =
      (none : Option String).getD "codellama" :=
  streaming_concat_until_first_done ⟨"http://localhost:11434", "codellama"⟩ "prompt"
    none [⟨false, "Hel"⟩, ⟨true, "lo"⟩, ⟨false, "tail"⟩] 1 rfl

set_option maxRecDepth 8000 in
/-- C8: whenever the allow-list is exactly ["codellama"] and the trigger
decision of a request is triggered with requested model "mistral", the
per-request processing posts exactly one comment — the rejection comment,
whose text contains "mistral" and "codellama" — and performs no generation
call at all (no fallback to the default model). -/
theorem disallowed_model_rejection_no_generation (bot : String) (pr : PrInfo)
    (diff review : String) (comments : List Comment)
    (h1 : (decideTrigger bot comments).triggered = true)
    (h2 : (decideTrigger bot comments).requestedModel = some "mistral") :
    processRequest bot ["codellama"] pr diff review comments =
      [Effect.postComment (rejectionMsg "mistral" ["codellama"])]
    ∧ pyIn "mistral" (rejectionMsg "mistral" ["codellama"]) = true
    ∧ pyIn "codellama" (rejectionMsg "mistral" ["codellama"]) = true
    ∧ (∀ m p, Effect.generate m p ∉
        processRequest bot ["codellama"] pr diff review comments) := by
  cases comments with
  | nil => exact absurd h1 (by simp [decideTrigger, decideScan])
  | cons a l =>
    have ht : (decideScan bot (a :: l)).1 = true := h1
    have hm : get_requested_model (decideScan bot (a :: l)).2 = some "mistral" := by
      simpa [decideTrigger, ht] using h2
    have hc : (["codellama"] : List String).contains "mistral" = false := by decide
    have e : processRequest bot ["codellama"] pr diff review (a :: l) =
        [Effect.postComment (rejectionMsg "mistral" ["codellama"])] := by
      simp [processRequest, ht, hm, hc]
    refine ⟨e, by decide, by decide, ?_⟩
    intro m p hmem
    rw [e] at hmem
    simp at hmem

set_option maxRecDepth 8000 in
/-- Witness for C8: the concrete thread [alice: "@bot use mistral"]. -/
theorem disallowed_model_rejection_no_generation_witness :
    processRequest "bot" ["codellama"] ⟨"t"⟩ "d" "r" [⟨"alice", "@bot use mistral"⟩] =
      [Effect.postComment (rejectionMsg "mistral" ["codellama"])]
    ∧ pyIn "mistral" (rejectionMsg "mistral" ["codellama"]) = true
    ∧ pyIn "codellama" (rejectionMsg "mistral" ["codellama"]) = true
    ∧ (∀ m p, Effect.generate m p ∉
        processRequest "bot" ["codellama"] ⟨"t"⟩ "d" "r" [⟨"alice", "@bot use mistral"⟩]) :=
  disallowed_model_rejection_no_generation "bot" ⟨"t"⟩ "d" "r"
    [⟨"alice", "@bot use mistral"⟩] (by decide) (by decide)

/-- Helper: line splitting never yields an empty list of lines. -/
theorem splitLines_ne_nil (l : List Char) : splitLines l ≠ [] := by
  cases l with
  | nil => simp [splitLines]
  | cons c rest =>
    simp only [splitLines]
    split
    · simp
    · split
      · simp
      · simp

/-- Helper: a leading newline opens an empty first line. -/
theorem splitLines_newline (l : List Char) : splitLines ('\n' :: l) = [] :: splitLines l := rfl

/-- Helper: a newline-free block prepends onto the first line of what
follows it. -/
theorem splitLines_append_no_nl (a : List Char) (s : List Char) (ss : List (List Char))
    (l : List Char) (ha : ∀ c ∈ a, (c == '\n') = false) (hl : splitLines l = s :: ss) :
    splitLines (a ++ l) = (a ++ s) :: ss := by
  induction a with
  | nil => simpa using hl
  | cons c as ih =>
    have hc : (c == '\n') = false := ha c (List.mem_cons_self c as)
    have hrest : splitLines (as ++ l) = (as ++ s) :: ss :=
      ih (fun d hd => ha d (List.mem_cons_of_mem c hd))
    rw [List.cons_append]
    simp only [splitLines, hc, hrest]
    simp

/-- Helper: a newline-free text is a single line. -/
theorem splitLines_no_nl (a : List Char) (ha : ∀ c ∈ a, (c == '\n') = false) :
    splitLines a = [a] := by
  have h := splitLines_append_no_nl a [] [] [] ha rfl
  simpa using h

/-- Helper: joining the split lines recovers the original text. -/
theorem join_split (l : List Char) : joinLines (splitLines l) = l := by
  induction l with
  | nil => rfl
  | cons c rest ih =>
    by_cases hc : (c == '\n') = true
    · have hceq : c = '\n' := by simpa using hc
      subst hceq
      rw [splitLines_newline]
      cases hs : splitLines rest with
      | nil => exact absurd hs (splitLines_ne_nil rest)
      | cons s ss =>
        rw [hs] at ih
        show joinLines ([] :: s :: ss) = '\n' :: rest
        rw [show joinLines ([] :: s :: ss) = [] ++ '\n' :: joinLines (s :: ss) from rfl, ih]
        rfl
    · have hc2 : (c == '\n') = false := by simpa using hc
      cases hs : splitLines rest with
      | nil => exact absurd hs (splitLines_ne_nil rest)
      | cons s ss =>
        rw [hs] at ih
        have h1 : splitLines (c :: rest) = (c :: s) :: ss := by
          simp only [splitLines, hc2, hs]
          simp
        rw [h1]
        cases ss with
        | nil =>
          have hseq : s = rest := ih
          rw [show joinLines [c :: s] = c :: s from rfl, hseq]
        | cons s2 ss2 =>
          rw [show joinLines ((c :: s) :: s2 :: ss2) =
            (c :: s) ++ '\n' :: joinLines (s2 :: ss2) from rfl]
          rw [show (c :: s) ++ '\n' :: joinLines (s2 :: ss2) =
            c :: (s ++ '\n' :: joinLines (s2 :: ss2)) from rfl]
          rw [show s ++ '\n' :: joinLines (s2 :: ss2) = joinLines (s :: s2 :: ss2) from rfl]
          rw [ih]

/-- Helper: dedent's whitespace-only normalization is the identity on a
text without whitespace-only lines. -/
theorem blankLines_eq_self (L : List (List Char))
    (h : ∀ line ∈ L, wsOnlyLine line = false) : blankLines L = L := by
  induction L with
  | nil => rfl
  | cons a as ih =>
    show (if wsOnlyLine a then [] else a) :: blankLines as = a :: as
    have ha : wsOnlyLine a = false := h a (List.mem_cons_self a as)
    simp [ha, ih (fun d hd => h d (List.mem_cons_of_mem a hd))]

/-- Helper: the common-prefix fold from the empty prefix stays empty. -/
theorem foldl_lcp_nil (L : List (List Char)) : L.foldl lcp [] = [] := by
  induction L with
  | nil => rfl
  | cons a as ih =>
    rw [List.foldl_cons, show lcp [] a = [] from rfl]
    exact ih

/-- Helper: when every line is unindented, the dedent margin is empty. -/
theorem marginOf_nil_of_indents (L : List (List Char))
    (h : ∀ line ∈ L, indentOf line = []) : marginOf L = [] := by
  have hM : marginOf L =
      (match (L.filter isContentLine).map indentOf with
        | [] => []
        | i :: rest => rest.foldl lcp i) := rfl
  rw [hM]
  cases hI : (L.filter isContentLine).map indentOf with
  | nil => rfl
  | cons i rest =>
    have hi : i = [] := by
      have hmem : i ∈ (L.filter isContentLine).map indentOf := by
        rw [hI]; exact List.mem_cons_self i rest
      obtain ⟨line, hline, hieq⟩ := List.mem_map.mp hmem
      rw [← hieq]
      exact h line (List.mem_of_mem_filter hline)
    simp only [hi]
    exact foldl_lcp_nil rest

/-- Helper: stripping an empty margin changes nothing. -/
theorem stripMargin_nil (L : List (List Char)) : stripMargin [] L = L := rfl

/-- Helper: on a text with no whitespace-only line and no indented line,
textwrap.dedent is the identity. -/
theorem dedent_eq_self (s : String)
    (h : ∀ line ∈ splitLines s.data, wsOnlyLine line = false ∧ indentOf line = []) :
    dedent s = s := by
  have hb : blankLines (splitLines s.data) = splitLines s.data :=
    blankLines_eq_self _ (fun d hd => (h d hd).1)
  have hm : marginOf (splitLines s.data) = [] :=
    marginOf_nil_of_indents _ (fun d hd => (h d hd).2)
  show String.mk (joinLines (stripMargin (marginOf (blankLines (splitLines s.data)))
    (blankLines (splitLines s.data)))) = s
  rw [hb, hm, stripMargin_nil, join_split]

set_option maxRecDepth 8000 in
/-- Helper: the raw prompt for title "t" is the header line, a newline,
"Git diff", a newline, and the diff. -/
theorem raw_data_shape (d : String) :
    (reviewPromptRaw "t" (diffPrompt d)).data =
      hdrLineT.data ++ '\n' :: ("Git diff".data ++ '\n' :: d.data) := rfl

set_option maxRecDepth 8000 in
/-- Helper: the lines of the raw prompt for a newline-free diff. -/
theorem splitLines_prompt (d : List Char) (hd : ∀ c ∈ d, (c == '\n') = false) :
    splitLines (hdrLineT.data ++ '\n' :: ("Git diff".data ++ '\n' :: d)) =
      [hdrLineT.data, "Git diff".data, d] := by
  have h3 : splitLines d = [d] := splitLines_no_nl d hd
  have h2 : splitLines ('\n' :: d) = [] :: [d] := by rw [splitLines_newline, h3]
  have h2b : splitLines ("Git diff".data ++ '\n' :: d) = ["Git diff".data, d] := by
    have h := splitLines_append_no_nl "Git diff".data [] [d] ('\n' :: d) (by decide) h2
    simpa using h
  have h1 : splitLines ('\n' :: ("Git diff".data ++ '\n' :: d)) =
      [] :: ["Git diff".data, d] := by
    rw [splitLines_newline, h2b]
  have h0 := splitLines_append_no_nl hdrLineT.data [] ["Git diff".data, d]
    ('\n' :: ("Git diff".data ++ '\n' :: d)) (by decide) h1
  simpa using h0

set_option maxRecDepth 8000 in
/-- Helper: the header line is neither whitespace-only nor indented. -/
theorem hdr_line_flat : wsOnlyLine hdrLineT.data = false ∧ indentOf hdrLineT.data = [] := by
  constructor
  · decide
  · decide

/-- Helper: the "Git diff" line is neither whitespace-only nor indented. -/
theorem gd_line_flat : wsOnlyLine "Git diff".data = false ∧ indentOf "Git diff".data = [] := by
  constructor
  · decide
  · decide

/-- Helper: a non-empty all-'x' line is neither whitespace-only nor
indented. -/
theorem replicate_x_flat (n : Nat) (hn : n ≠ 0) :
    wsOnlyLine (List.replicate n 'x') = false ∧ indentOf (List.replicate n 'x') = [] := by
  cases n with
  | zero => exact absurd rfl hn
  | succ m =>
    rw [List.replicate_succ]
    constructor
    · have hx : indentChar 'x' = false := by decide
      simp [wsOnlyLine, List.all_cons, hx]
    · have hx : indentChar 'x' = false := by decide
      simp [indentOf, List.takeWhile_cons, hx]

/-- Helper: an all-'x' line contains no newline. -/
theorem replicate_x_no_nl (n : Nat) : ∀ c ∈ List.replicate n 'x', (c == '\n') = false := by
  intro c hc
  rw [List.eq_of_mem_replicate hc]
  decide

set_option maxRecDepth 8000 in
/-- C4 counterexample: a 4001-character diff of x characters.  The
per-request processing embeds the whole diff in the generation prompt
(dedent leaves this prompt unchanged: no whitespace-only or indented
lines), and the prompt differs from the one the claim requires, in which
the diff would have been cut to its first 4000 characters. -/
theorem diff_truncation_counterexample :
    4000 < bigDiff.length
    ∧ processRequest "bot" [] ⟨"t"⟩ bigDiff "r" [⟨"alice", "@bot hi"⟩] =
        [Effect.getDiff,
         Effect.generate none (reviewPrompt "t" (diffPrompt bigDiff)),
         Effect.postComment "r"]
    ∧ reviewPrompt "t" (diffPrompt bigDiff) ≠
        reviewPrompt "t" (diffPrompt (strTake bigDiff 4000)) := by
  have hlen : bigDiff.length = 4001 := by
    rw [show bigDiff.length = (List.replicate 4001 'x').length from rfl,
      List.length_replicate]
  have htake : (strTake bigDiff 4000).length = 4000 := by
    rw [show (strTake bigDiff 4000).length =
        ((List.replicate 4001 'x').take 4000).length from rfl,
      List.length_take, List.length_replicate]
    omega
  have hid : ∀ d : String, (∀ c ∈ d.data, (c == '\n') = false) →
      (wsOnlyLine d.data = false ∧ indentOf d.data = []) →
      reviewPrompt "t" (diffPrompt d) = reviewPromptRaw "t" (diffPrompt d) := by
    intro d hnl hflat
    show dedent (reviewPromptRaw "t" (diffPrompt d)) = reviewPromptRaw "t" (diffPrompt d)
    apply dedent_eq_self
    intro line hline
    rw [raw_data_shape d, splitLines_prompt d.data hnl] at hline
    simp only [List.mem_cons, List.not_mem_nil, or_false] at hline
    rcases hline with rfl | rfl | rfl
    · exact hdr_line_flat
    · exact gd_line_flat
    · exact hflat
  have hid1 : reviewPrompt "t" (diffPrompt bigDiff) =
      reviewPromptRaw "t" (diffPrompt bigDiff) := by
    apply hid
    · exact replicate_x_no_nl 4001
    · exact replicate_x_flat 4001 (by omega)
  have htk : (strTake bigDiff 4000).data = List.replicate 4000 'x' := by
    rw [show (strTake bigDiff 4000).data = (List.replicate 4001 'x').take 4000 from rfl,
      List.take_replicate]
    norm_num
  have hid2 : reviewPrompt "t" (diffPrompt (strTake bigDiff 4000)) =
      reviewPromptRaw "t" (diffPrompt (strTake bigDiff 4000)) := by
    apply hid
    · rw [htk]; exact replicate_x_no_nl 4000
    · rw [htk]; exact replicate_x_flat 4000 (by omega)
  refine ⟨by omega, rfl, ?_⟩
  intro hcontra
  rw [hid1, hid2] at hcontra
  have h := congrArg String.length hcontra
  simp only [reviewPromptRaw, diffPrompt, string_length_append, hlen, htake] at h
  omega

/-- C4 amended: no truncation is performed in diff-mode.  Every generation
effect the per-request processing emits carries textwrap.dedent of the
fixed header plus "Git diff\n" plus the entire fetched diff, whatever its
length; and whenever no line of that assembled text is whitespace-only or
indented, dedent changes nothing, so the diff is embedded verbatim. -/
theorem diff_never_truncated (bot : String) (allowed : List String) (pr : PrInfo)
    (diff review : String) (comments : List Comment) (m : Option String) (p : String)
    (h : Effect.generate m p ∈ processRequest bot allowed pr diff review comments) :
    p = reviewPrompt pr.title (diffPrompt diff)
    ∧ ((∀ line ∈ splitLines (reviewPromptRaw pr.title (diffPrompt diff)).data,
          wsOnlyLine line = false ∧ indentOf line = []) →
        p = reviewPromptRaw pr.title (diffPrompt diff)) := by
  have hp : p = reviewPrompt pr.title (diffPrompt diff) := by
    unfold processRequest at h
    split at h
    · simp at h
    · split at h
      · split at h
        · split at h
          · simp at h
            exact h.2
          · simp at h
        · simp at h
          exact h.2
      · simp at h
  refine ⟨hp, ?_⟩
  intro hlines
  rw [hp]
  show dedent (reviewPromptRaw pr.title (diffPrompt diff)) =
    reviewPromptRaw pr.title (diffPrompt diff)
  exact dedent_eq_self _ hlines

set_option maxRecDepth 8000 in
/-- Witness for C4's amended statement: a request whose generation effect
is concretely in the emitted trace. -/
theorem diff_never_truncated_witness :
    (Effect.generate none (reviewPrompt "t" (diffPrompt "d"))
        ∈ processRequest "bot" [] ⟨"t"⟩ "d" "r" [⟨"alice", "@bot hi"⟩])
    ∧ (reviewPrompt "t" (diffPrompt "d") = reviewPrompt "t" (diffPrompt "d")
        ∧ ((∀ line ∈ splitLines (reviewPromptRaw "t" (diffPrompt "d")).data,
              wsOnlyLine line = false ∧ indentOf line = []) →
            reviewPrompt "t" (diffPrompt "d") = reviewPromptRaw "t" (diffPrompt "d"))) :=
  ⟨by decide,
   diff_never_truncated "bot" [] ⟨"t"⟩ "d" "r" [⟨"alice", "@bot hi"⟩] none
     (reviewPrompt "t" (diffPrompt "d")) (by decide)⟩


/-- Helper: the flag the scan fold computes is decided by the last relevant
comment, falling back to the initial flag. -/
theorem scan_foldl_fst (bot : String) (l : List Comment) : ∀ st : Bool × String,
    (List.foldl (scanStep bot) st l).1 = (lastRelevantTrig bot l).getD st.1 := by
  induction l with
  | nil => intro st; rfl
  | cons c l ih =>
    intro st
    rw [List.foldl_cons, ih]
    cases hr : lastRelevantTrig bot l with
    | some b => simp [lastRelevantTrig, hr]
    | none =>
      simp only [lastRelevantTrig, hr]
      by_cases hb : isBotAuthored bot c
      · simp [scanStep, hb]
      · by_cases hm : isMention bot c
        · simp [scanStep, hb, hm]
        · simp [scanStep, hb, hm]

/-- Helper: there is no last index satisfying `p` iff no element satisfies it. -/
theorem lastIdxSat_eq_none_iff (p : Comment → Bool) (l : List Comment) :
    lastIdxSat p l = none ↔ ∀ c ∈ l, p c = false := by
  induction l with
  | nil => simp [lastIdxSat]
  | cons c l ih =>
    cases h : lastIdxSat p l with
    | some j =>
      have hcons : lastIdxSat p (c :: l) = some (j + 1) := by simp [lastIdxSat, h]
      rw [hcons]
      constructor
      · intro habs; exact Option.noConfusion habs
      · intro hall2
        exfalso
        have h2 := ih.mpr (fun d hd => hall2 d (List.mem_cons_of_mem c hd))
        rw [h] at h2
        exact Option.noConfusion h2
    | none =>
      have hall := ih.mp h
      by_cases hc : p c
      · have hcons : lastIdxSat p (c :: l) = some 0 := by simp [lastIdxSat, h, hc]
        rw [hcons]
        constructor
        · intro habs; exact Option.noConfusion habs
        · intro hall2
          exfalso
          have := hall2 c (List.mem_cons_self c l)
          rw [hc] at this
          exact Bool.noConfusion this
      · have hc2 : p c = false := by simpa using hc
        have hcons : lastIdxSat p (c :: l) = none := by simp [lastIdxSat, h, hc2]
        rw [hcons]
        constructor
        · intro _ d hd
          rcases List.mem_cons.mp hd with rfl | hd2
          · exact hc2
          · exact hall d hd2
        · intro _; rfl

/-- Helper: no relevant comment iff no bot-authored comment and no mention. -/
theorem lastRelevantTrig_eq_none_iff (bot : String) (l : List Comment) :
    lastRelevantTrig bot l = none ↔
      ∀ c ∈ l, isBotAuthored bot c = false ∧ isMention bot c = false := by
  induction l with
  | nil => simp [lastRelevantTrig]
  | cons c l ih =>
    cases hr : lastRelevantTrig bot l with
    | some b =>
      have hcons : lastRelevantTrig bot (c :: l) = some b := by
        simp [lastRelevantTrig, hr]
      rw [hcons]
      constructor
      · intro habs; exact Option.noConfusion habs
      · intro hall2
        exfalso
        have h2 := ih.mpr (fun d hd => hall2 d (List.mem_cons_of_mem c hd))
        rw [hr] at h2
        exact Option.noConfusion h2
    | none =>
      have hall := ih.mp hr
      by_cases hb : isBotAuthored bot c
      · have hcons : lastRelevantTrig bot (c :: l) = some false := by
          simp [lastRelevantTrig, hr, hb]
        rw [hcons]
        constructor
        · intro habs; exact Option.noConfusion habs
        · intro hall2
          exfalso
          have := (hall2 c (List.mem_cons_self c l)).1
          rw [hb] at this
          exact Bool.noConfusion this
      · have hb2 : isBotAuthored bot c = false := by simpa using hb
        by_cases hm : isMention bot c
        · have hcons : lastRelevantTrig bot (c :: l) = some true := by
            simp [lastRelevantTrig, hr, hb2, hm]
          rw [hcons]
          constructor
          · intro habs; exact Option.noConfusion habs
          · intro hall2
            exfalso
            have := (hall2 c (List.mem_cons_self c l)).2
            rw [hm] at this
            exact Bool.noConfusion this
        · have hm2 : isMention bot c = false := by simpa using hm
          have hcons : lastRelevantTrig bot (c :: l) = none := by
            simp [lastRelevantTrig, hr, hb2, hm2]
          rw [hcons]
          constructor
          · intro _ d hd
            rcases List.mem_cons.mp hd with rfl | hd2
            · exact ⟨hb2, hm2⟩
            · exact hall d hd2
          · intro _; rfl

/-- Helper: the last relevant comment yields true exactly when the last
mention is strictly after the last bot-authored comment. -/
theorem lastRelevantTrig_true_iff (bot : String) (l : List Comment) :
    lastRelevantTrig bot l = some true ↔
      ∃ j, lastIdxSat (isMention bot) l = some j ∧
        ∀ i, lastIdxSat (isBotAuthored bot) l = some i → i < j := by
  induction l with
  | nil => simp [lastRelevantTrig, lastIdxSat]
  | cons c l ih =>
    cases hr : lastRelevantTrig bot l with
    | some b =>
      have hcons : lastRelevantTrig bot (c :: l) = some b := by
        simp [lastRelevantTrig, hr]
      rw [hcons]
      cases hm : lastIdxSat (isMention bot) l with
      | some j =>
        have hmc : lastIdxSat (isMention bot) (c :: l) = some (j + 1) := by
          simp [lastIdxSat, hm]
        cases hb : lastIdxSat (isBotAuthored bot) l with
        | some i =>
          have hbc : lastIdxSat (isBotAuthored bot) (c :: l) = some (i + 1) := by
            simp [lastIdxSat, hb]
          have hih : b = true ↔ i < j := by
            constructor
            · intro hbt
              obtain ⟨j2, hj2, hfa⟩ := ih.mp (by rw [hr, hbt])
              rw [hm] at hj2
              have hje : j = j2 := Option.some.inj hj2
              have hij2 := hfa i hb
              omega
            · intro hij
              have h2 : lastRelevantTrig bot l = some true :=
                ih.mpr ⟨j, hm, by
                  intro i2 hi2
                  rw [hb] at hi2
                  have := Option.some.inj hi2
                  omega⟩
              rw [hr] at h2
              exact Option.some.inj h2
          rw [hmc, hbc]
          constructor
          · intro hbt
            have hlt := hih.mp (Option.some.inj hbt)
            refine ⟨j + 1, rfl, ?_⟩
            intro i2 hi2
            have := Option.some.inj hi2
            omega
          · rintro ⟨j2, hj2, hfa⟩
            have hj2e := Option.some.inj hj2
            have hlt := hfa (i + 1) rfl
            have hij : i < j := by omega
            rw [hih.mpr hij]
        | none =>
          have hbt : b = true := by
            have h2 : lastRelevantTrig bot l = some true :=
              ih.mpr ⟨j, hm, by
                intro i2 hi2
                rw [hb] at hi2
                exact Option.noConfusion hi2⟩
            rw [hr] at h2
            exact Option.some.inj h2
          subst hbt
          rw [hmc]
          constructor
          · intro _
            refine ⟨j + 1, rfl, ?_⟩
            intro i2 hi2
            have hbc : lastIdxSat (isBotAuthored bot) (c :: l) =
                (if isBotAuthored bot c then some 0 else none) := by
              simp [lastIdxSat, hb]
            rw [hbc] at hi2
            by_cases hcb : isBotAuthored bot c
            · rw [if_pos hcb] at hi2
              have := Option.some.inj hi2
              omega
            · rw [if_neg hcb] at hi2
              exact Option.noConfusion hi2
          · intro _; rfl
      | none =>
        cases hb : lastIdxSat (isBotAuthored bot) l with
        | some i =>
          have hbf : b = false := by
            by_cases hbv : b = true
            · exfalso
              obtain ⟨j2, hj2, _⟩ := ih.mp (by rw [hr, hbv])
              rw [hm] at hj2
              exact Option.noConfusion hj2
            · simpa using hbv
          subst hbf
          have hmc : lastIdxSat (isMention bot) (c :: l) =
              (if isMention bot c then some 0 else none) := by
            simp [lastIdxSat, hm]
          have hbc : lastIdxSat (isBotAuthored bot) (c :: l) = some (i + 1) := by
            simp [lastIdxSat, hb]
          rw [hmc, hbc]
          constructor
          · intro habs
            exact absurd (Option.some.inj habs) (by simp)
          · rintro ⟨j2, hj2, hfa⟩
            exfalso
            by_cases hcm : isMention bot c
            · rw [if_pos hcm] at hj2
              have h0 := Option.some.inj hj2
              have := hfa (i + 1) rfl
              omega
            · rw [if_neg hcm] at hj2
              exact Option.noConfusion hj2
        | none =>
          exfalso
          have h2 : lastRelevantTrig bot l = none :=
            (lastRelevantTrig_eq_none_iff bot l).mpr (fun d hd =>
              ⟨(lastIdxSat_eq_none_iff _ _).mp hb d hd,
               (lastIdxSat_eq_none_iff _ _).mp hm d hd⟩)
          rw [hr] at h2
          exact Option.noConfusion h2
    | none =>
      have hall := (lastRelevantTrig_eq_none_iff bot l).mp hr
      have hm : lastIdxSat (isMention bot) l = none :=
        (lastIdxSat_eq_none_iff _ _).mpr (fun d hd => (hall d hd).2)
      have hb : lastIdxSat (isBotAuthored bot) l = none :=
        (lastIdxSat_eq_none_iff _ _).mpr (fun d hd => (hall d hd).1)
      have hmc : lastIdxSat (isMention bot) (c :: l) =
          (if isMention bot c then some 0 else none) := by
        simp [lastIdxSat, hm]
      have hbc : lastIdxSat (isBotAuthored bot) (c :: l) =
          (if isBotAuthored bot c then some 0 else none) := by
        simp [lastIdxSat, hb]
      by_cases hcb : isBotAuthored bot c
      · have hcons : lastRelevantTrig bot (c :: l) = some false := by
          simp [lastRelevantTrig, hr, hcb]
        rw [hcons, hmc, hbc, if_pos hcb]
        constructor
        · intro habs
          exact absurd (Option.some.inj habs) (by simp)
        · rintro ⟨j2, hj2, hfa⟩
          exfalso
          by_cases hcm : isMention bot c
          · rw [if_pos hcm] at hj2
            have h0 := Option.some.inj hj2
            have := hfa 0 rfl
            omega
          · rw [if_neg hcm] at hj2
            exact Option.noConfusion hj2
      · have hcb2 : isBotAuthored bot c = false := by simpa using hcb
        by_cases hcm : isMention bot c
        · have hcons : lastRelevantTrig bot (c :: l) = some true := by
            simp [lastRelevantTrig, hr, hcb2, hcm]
          rw [hcons, hmc, hbc, if_pos hcm, if_neg hcb]
          constructor
          · intro _
            exact ⟨0, rfl, by intro i2 hi2; exact Option.noConfusion hi2⟩
          · intro _; rfl
        · have hcm2 : isMention bot c = false := by simpa using hcm
          have hcons : lastRelevantTrig bot (c :: l) = none := by
            simp [lastRelevantTrig, hr, hcb2, hcm2]
          rw [hcons, hmc, hbc, if_neg hcm, if_neg hcb]
          constructor
          · intro habs
            exact Option.noConfusion habs
          · rintro ⟨j2, hj2, _⟩
            exact Option.noConfusion hj2

/-- Helper: a thread with no mention can never set the flag. -/
theorem scan_no_mention (bot : String) (cs : List Comment)
    (h : ∀ c ∈ cs, isMention bot c = false) :
    ∀ st : Bool × String, st.1 = false →
      (List.foldl (scanStep bot) st cs).1 = false := by
  induction cs with
  | nil => intro st hst; exact hst
  | cons c l ih =>
    intro st hst
    rw [List.foldl_cons]
    apply ih (fun d hd => h d (List.mem_cons_of_mem c hd))
    by_cases hb : isBotAuthored bot c
    · simp [scanStep, hb]
    · have hm := h c (List.mem_cons_self c l)
      simp [scanStep, hb, hm, hst]

/-- C1: the scan's decision is triggered exactly when the last comment whose
author contains the bot identity (the source's author check) lies strictly
before the last comment whose body contains the "@bot" mention text — in
particular it is not triggered on the empty thread, on any thread ending
with a bot-authored comment (whatever came before), or on any thread with
no mention at all. -/
theorem trigger_iff_last_mention_after_last_bot (bot : String) (cs : List Comment) :
    ((decideTrigger bot cs).triggered = true ↔
      ∃ j, lastIdxSat (isMention bot) cs = some j ∧
        ∀ i, lastIdxSat (isBotAuthored bot) cs = some i → i < j)
    ∧ (decideTrigger bot []).triggered = false
    ∧ (∀ (cs2 : List Comment) (c : Comment), isBotAuthored bot c = true →
        (decideTrigger bot (cs2 ++ [c])).triggered = false)
    ∧ ((∀ c ∈ cs, isMention bot c = false) →
        (decideTrigger bot cs).triggered = false) := by
  refine ⟨?_, rfl, ?_, ?_⟩
  · have h1 : (decideTrigger bot cs).triggered = (lastRelevantTrig bot cs).getD false :=
      scan_foldl_fst bot cs (false, "")
    rw [h1, ← lastRelevantTrig_true_iff bot cs]
    cases h : lastRelevantTrig bot cs with
    | none => simp
    | some b => cases b <;> simp
  · intro cs2 c hc
    show (List.foldl (scanStep bot) (false, "") (cs2 ++ [c])).1 = false
    rw [List.foldl_append]
    simp [scanStep, hc]
  · intro hnm
    exact scan_no_mention bot cs hnm (false, "") rfl

/-- Helper: the case-insensitive matcher consumes the keyword exactly when
the spec's starts-with test holds, leaving the rest of the text. -/
theorem matchCI_eq (kw : List Char) : ∀ t : List Char,
    matchCI kw t = if ciStartsWith kw t then some (t.drop kw.length) else none := by
  induction kw with
  | nil => intro t; simp [matchCI, ciStartsWith]
  | cons p ps ih =>
    intro t
    cases t with
    | nil => simp [matchCI, ciStartsWith]
    | cons c cs =>
      by_cases hc : c.toLower == p
      · simp [matchCI, ciStartsWith, hc, ih cs, List.drop]
      · simp [matchCI, ciStartsWith, hc]

/-- Helper: "use" and "using" cannot both start (case-insensitively) at the
same position: the third character would have to lower to both e and i. -/
theorem use_using_exclusive (t : List Char) :
    ciStartsWith ['u', 's', 'e'] t = true →
      ciStartsWith ['u', 's', 'i', 'n', 'g'] t = false := by
  match t with
  | [] => intro h; exact absurd h (by simp [ciStartsWith])
  | [a] => intro h; exact absurd h (by simp [ciStartsWith])
  | [a, b] => intro h; exact absurd h (by simp [ciStartsWith])
  | a :: b :: c :: t2 =>
    intro h
    simp [ciStartsWith] at h ⊢
    intro _ _
    have he : c.toLower = 'e' := h.2.2
    rw [he]
    intro habs
    exact absurd habs (by decide)

/-- Helper: the alternation `(use|using)` tried at one position equals the
spec's keyword test there: at most one keyword can be followed by the
required whitespace, so the attempt order does not matter. -/
theorem tryMatch_eq_keyword (t : List Char) :
    tryMatch t = (match keywordLenAt t with
      | some k => matchWsToken (t.drop k)
      | none => none) := by
  by_cases hu : ciStartsWith ['u', 's', 'e'] t
  · have hnu : ciStartsWith ['u', 's', 'i', 'n', 'g'] t = false :=
      use_using_exclusive t hu
    simp only [tryMatch, tryUsing, matchCI_eq, hu, hnu, keywordLenAt]
    simp only [if_true, if_false, Bool.false_eq_true, List.length_cons,
      List.length_nil]
    cases hw : matchWsToken (t.drop 3) <;> simp [hw]
  · have hu2 : ciStartsWith ['u', 's', 'e'] t = false := by simpa using hu
    by_cases hg : ciStartsWith ['u', 's', 'i', 'n', 'g'] t
    · simp [tryMatch, tryUsing, matchCI_eq, hu2, hg, keywordLenAt]
    · have hg2 : ciStartsWith ['u', 's', 'i', 'n', 'g'] t = false := by simpa using hg
      simp [tryMatch, tryUsing, matchCI_eq, hu2, hg2, keywordLenAt]

/-- Helper: findSome? over a successor-mapped index list shifts the index. -/
theorem findSome_map_succ {α : Type} (f : Nat → Option α) : ∀ l : List Nat,
    (l.map Nat.succ).findSome? f = l.findSome? (fun i => f (i + 1)) := by
  intro l
  induction l with
  | nil => rfl
  | cons a l ih =>
    simp only [List.map_cons, List.findSome?, Nat.succ_eq_add_one]
    cases h : f (a + 1) <;> simp [h, ih]

/-- Helper: the boundary-generalized hit at offset 0 versus offset i+1. -/
theorem specHitP_succ (prev : Option Char) (c : Char) (rest : List Char) (i : Nat) :
    specHitP prev (c :: rest) (i + 1) = specHitP (some c) rest i := by
  cases i with
  | zero => simp [specHitP, bndP]
  | succ j => simp [specHitP, bndP]

/-- Helper: the regex scan equals the first hit of the spec's description,
with the boundary at the scan head decided by the preceding character. -/
theorem searchAux_eq (l : List Char) : ∀ prev : Option Char,
    searchAux prev l = (List.range l.length).findSome? (specHitP prev l) := by
  induction l with
  | nil => intro prev; rfl
  | cons c rest ih =>
    intro prev
    have h0 : specHitP prev (c :: rest) 0 =
        (if (match prev with | none => true | some p => !(wordChar p)) then
          tryMatch (c :: rest) else none) := by
      simp only [specHitP, bndP, List.drop_zero, tryMatch_eq_keyword]
    have hfun : (fun i => specHitP prev (c :: rest) (i + 1)) = specHitP (some c) rest :=
      funext (fun i => specHitP_succ prev c rest i)
    rw [List.length_cons, List.range_succ_eq_map, List.findSome?, h0,
      findSome_map_succ, hfun, ← ih (some c)]
    simp only [searchAux]
    cases hx : (if (match prev with | none => true | some p => !(wordChar p)) then
        tryMatch (c :: rest) else none) <;> simp [hx]

/-- Helper: the hit of the spec's wording coincides with its boundary
generalization when nothing precedes the text. -/
theorem specHit_eq_specHitP (l : List Char) (i : Nat) :
    specHit l i = specHitP none l i := by
  cases i <;> rfl

/-- Helper: the source's extraction equals the spec's description of it. -/
theorem get_requested_model_eq_spec (t : String) :
    get_requested_model t = extractModelSpec t := by
  unfold get_requested_model extractModelSpec
  rw [searchAux_eq t.data none]
  have hfun : specHitP none t.data = specHit t.data :=
    funext (fun i => (specHit_eq_specHitP t.data i).symm)
  rw [hfun]

set_option maxRecDepth 8000 in
/-- C6: get_requested_model behaves exactly as the spec describes the
extraction — the token of characters from letters, digits, -, :, .
immediately following (after whitespace) the first case-insensitive
whole-word occurrence of "use" or "using", none when there is no such
occurrence — and on the spec's two examples it returns "codellama:13b"
and none respectively. -/
theorem extract_model_matches_spec :
    (∀ t : String, get_requested_model t = extractModelSpec t)
    ∧ get_requested_model "please use codellama:13b for this" = some "codellama:13b"
    ∧ get_requested_model "no keyword here" = none :=
  ⟨get_requested_model_eq_spec, by decide, by decide⟩
